import Mathlib

/-!
# Verification of the sogni-creatures-api core components

Shallow embedding of the three core pieces of the repository:

* the single-flight FIFO request queue (`Creator` in the unnamed queue module),
* the memoizing blur cache (`blurImage` in `src/index.js`),
* the flood-fill background remover (the `GET /` handler in `src/index.js`).

JavaScript is single threaded with run-to-completion semantics: code between
two `await` points executes atomically.  The queue is therefore modelled as a
labelled transition system whose atomic steps are exactly the synchronous
segments of the source: an `enqueue` step (the `processRequest` body, which
pushes the job and runs the synchronous prefix of `_moveQueue` up to
`await this.sogni`), and a `finish` step (the continuation after the job body
settles: resolve/reject, `isIdle = true`, and the recursive `_moveQueue`).
While a job body is suspended at one of its `await`s the queue state is
untouched by that invocation, so compressing the body into one `finish` label
loses no observable behaviour.
-/

namespace Creatures

/-! ## The request queue (`Creator`, queue module lines 28-78) -/

/-- Outcome of a job body: `ok url` when `project.waitForCompletion()` yields
`images` and the job resolves with `images[0]`; `err e` when any `await` in the
body throws. -/
inductive Outcome where
  | ok (v : String)
  | err (e : String)
deriving DecidableEq, Repr

/-- Which of a job's two continuations fired, and with what. -/
inductive Cont where
  | resolved (v : String)
  | rejected (e : String)
deriving DecidableEq, Repr

/-- The `try`/`catch` routing of `_moveQueue` (lines 65-72): a successful body
resolves the job's promise with its value, a failing body rejects it with the
thrown error. -/
def route : Outcome → Cont
  | .ok v => .resolved v
  | .err e => .rejected e

/-- Queue state.  Jobs are numbered in enqueue order (`nextId` counts the
enqueues so far).  `pending` is `this.queue` (job ids in FIFO order), `isIdle`
is the boolean field of the class (the instance field shadows the prototype
getter, so reads and writes see a plain boolean).  `executing` is the set
(as a list) of jobs whose body is currently between its start and its
settlement; the source has no such variable, it is the observation the claims
are about.  `startedLog`, `finishLog` and `delivered` are history variables
recording, in order: body starts, body settlements with their outcome, and
continuation firings. -/
structure QState where
  nextId : Nat
  pending : List Nat
  isIdle : Bool
  executing : List Nat
  startedLog : List Nat
  finishLog : List (Nat × Outcome)
  delivered : List (Nat × Cont)
deriving DecidableEq, Repr

def initQ : QState :=
  { nextId := 0, pending := [], isIdle := true, executing := [],
    startedLog := [], finishLog := [], delivered := [] }

/-- The synchronous prefix of `_moveQueue` (lines 58-64): if the flag says busy
or the queue is empty, return; otherwise mark busy, shift the head job and
start executing its body. -/
def moveQueue (s : QState) : QState :=
  if !s.isIdle || s.pending.isEmpty then s
  else
    match s.pending with
    | [] => s
    | j :: rest =>
      { s with isIdle := false, pending := rest,
               executing := s.executing ++ [j],
               startedLog := s.startedLog ++ [j] }

/-- Atomic events: an `enqueue` (a `processRequest` call: push the job, then
run `_moveQueue` synchronously) and a `finish o` (the executing job's body
settles with outcome `o`: fire the matching continuation, set `isIdle = true`,
then run the recursive `_moveQueue` synchronously). -/
inductive QLabel where
  | enqueue
  | finish (o : Outcome)

/-- One atomic step.  `finish` is only enabled while some body is executing. -/
def qstep (s : QState) : QLabel → Option QState
  | .enqueue =>
    some (moveQueue { s with nextId := s.nextId + 1,
                             pending := s.pending ++ [s.nextId] })
  | .finish o =>
    match s.executing with
    | [] => none
    | j :: rest =>
      some (moveQueue { s with
        executing := rest,
        isIdle := true,
        finishLog := s.finishLog ++ [(j, o)],
        delivered := s.delivered ++ [(j, route o)] })

/-- Run a trace of events from a state. -/
def qsteps (s : QState) : List QLabel → Option QState
  | [] => some s
  | l :: ls =>
    match qstep s l with
    | none => none
    | some s' => qsteps s' ls

/-- Run a trace from the initial state. -/
def qrun (ls : List QLabel) : Option QState := qsteps initQ ls

/-- The inductive invariant of the queue. -/
structure QInv (s : QState) : Prop where
  idle_iff : s.isIdle = s.executing.isEmpty
  exec_le : s.executing.length ≤ 1
  started_pending : s.startedLog ++ s.pending = List.range s.nextId
  finished_exec : s.finishLog.map Prod.fst ++ s.executing = s.startedLog
  delivered_eq : s.delivered = s.finishLog.map (fun p => (p.1, route p.2))

theorem qinv_init : QInv initQ := by
  constructor <;> simp [initQ]

theorem qinv_moveQueue {s : QState} (h : QInv s) : QInv (moveQueue s) := by
  unfold moveQueue
  by_cases hg : (!s.isIdle || s.pending.isEmpty) = true
  · rw [if_pos hg]; exact h
  · rw [if_neg hg]
    have hidle : s.isIdle = true := by
      cases hi : s.isIdle
      · rw [hi] at hg; simp at hg
      · rfl
    have hex : s.executing = [] := by
      have := h.idle_iff
      rw [hidle] at this
      exact List.isEmpty_iff.mp this.symm
    cases hp : s.pending with
    | nil => exact h
    | cons j rest =>
      constructor
      · simp
      · simp [hex]
      · have := h.started_pending
        rw [hp] at this
        simpa using this
      · have := h.finished_exec
        rw [hex] at this
        simp only [List.append_nil] at this
        simp [hex, this]
      · exact h.delivered_eq

theorem qinv_step {s s' : QState} {l : QLabel} (h : QInv s)
    (hs : qstep s l = some s') : QInv s' := by
  cases l with
  | enqueue =>
    simp only [qstep, Option.some.injEq] at hs
    subst hs
    apply qinv_moveQueue
    constructor
    · exact h.idle_iff
    · exact h.exec_le
    · simp only
      rw [← List.append_assoc, h.started_pending, List.range_succ]
    · exact h.finished_exec
    · exact h.delivered_eq
  | finish o =>
    simp only [qstep] at hs
    split at hs
    · exact absurd hs (by simp)
    · rename_i j rest hex
      simp only [Option.some.injEq] at hs
      subst hs
      have hrest : rest = [] := by
        have := h.exec_le
        rw [hex] at this
        simpa using this
      apply qinv_moveQueue
      constructor
      · simp [hrest]
      · simp [hrest]
      · exact h.started_pending
      · have := h.finished_exec
        rw [hex] at this
        simp only [List.map_append, List.map_cons, List.map_nil, hrest]
        simp only [hrest] at this
        rw [List.append_assoc]
        simpa using this
      · simp [h.delivered_eq]

theorem qinv_steps : ∀ (ls : List QLabel) (s s' : QState), QInv s →
    qsteps s ls = some s' → QInv s' := by
  intro ls
  induction ls with
  | nil =>
    intro s s' h hs
    simp only [qsteps, Option.some.injEq] at hs
    subst hs
    exact h
  | cons l ls ih =>
    intro s s' h hs
    unfold qsteps at hs
    cases hq : qstep s l with
    | none => rw [hq] at hs; exact absurd hs (by simp)
    | some s₁ =>
      rw [hq] at hs
      exact ih s₁ s' (qinv_step h hq) hs

theorem qinv_run {ls : List QLabel} {s : QState} (h : qrun ls = some s) : QInv s :=
  qinv_steps ls initQ s qinv_init h

theorem moveQueue_delivered (s : QState) : (moveQueue s).delivered = s.delivered := by
  unfold moveQueue
  split
  · rfl
  · split <;> rfl

theorem moveQueue_start (s : QState) (hI : s.isIdle = true) (k : Nat) (ks : List Nat)
    (hp : s.pending = k :: ks) :
    moveQueue s = { s with isIdle := false, pending := ks,
                           executing := s.executing ++ [k],
                           startedLog := s.startedLog ++ [k] } := by
  unfold moveQueue
  rw [hI, hp]
  simp

/-- C2: in every reachable state of the queue, under every interleaving of
enqueue and completion events, at most one job's body is executing against the
downstream generation backend.  The atomicity of the steps reflects the
JavaScript event loop: `_moveQueue`'s check of `isIdle`, the `isIdle = false`
write and the `shift` of the head job all run synchronously before the first
`await` of the job body. -/
theorem queue_single_flight (ls : List QLabel) (s : QState) (h : qrun ls = some s) :
    s.executing.length ≤ 1 :=
  (qinv_run h).exec_le

theorem queue_single_flight_witness :
    qrun [QLabel.enqueue, QLabel.enqueue, QLabel.finish (Outcome.ok "u")] =
      some { nextId := 2, pending := [], isIdle := false, executing := [1],
             startedLog := [0, 1], finishLog := [(0, Outcome.ok "u")],
             delivered := [(0, Cont.resolved "u")] } ∧
    ({ nextId := 2, pending := [], isIdle := false, executing := [1],
       startedLog := [0, 1], finishLog := [(0, Outcome.ok "u")],
       delivered := [(0, Cont.resolved "u")] } : QState).executing.length ≤ 1 :=
  ⟨by decide, queue_single_flight [QLabel.enqueue, QLabel.enqueue, QLabel.finish (Outcome.ok "u")] _ (by decide)⟩

/-- C3: every continuation firing recorded in `delivered` carries its own job's
outcome, routed through `_moveQueue`'s `try`/`catch` (success resolves, failure
rejects); no job's continuation fires twice (the fired job ids are distinct);
and after a body fails, the failure is delivered through that job's own reject
continuation while the next pending job (if any) is dequeued and starts
executing in the same atomic step. -/
theorem queue_continuations_exact (ls : List QLabel) (s : QState)
    (h : qrun ls = some s) :
    (s.delivered.map Prod.fst).Nodup ∧
    s.delivered = s.finishLog.map (fun p => (p.1, route p.2)) ∧
    (∀ j t e, s.executing = j :: t →
      ∃ s', qstep s (QLabel.finish (Outcome.err e)) = some s' ∧
        s'.delivered = s.delivered ++ [(j, Cont.rejected e)] ∧
        ∀ k ks, s.pending = k :: ks →
          s'.executing = [k] ∧ s'.pending = ks ∧
          s'.startedLog = s.startedLog ++ [k]) := by
  have hI := qinv_run h
  have hnodupStarted : s.startedLog.Nodup := by
    have h1 : (s.startedLog ++ s.pending).Nodup := by
      rw [hI.started_pending]; exact List.nodup_range _
    exact h1.of_append_left
  refine ⟨?_, hI.delivered_eq, ?_⟩
  · have h2 : (s.finishLog.map Prod.fst ++ s.executing).Nodup := by
      rw [hI.finished_exec]; exact hnodupStarted
    have h3 : (s.finishLog.map Prod.fst).Nodup := h2.of_append_left
    rw [hI.delivered_eq]
    have h4 : (s.finishLog.map (fun p => (p.1, route p.2))).map Prod.fst
        = s.finishLog.map Prod.fst := by
      rw [List.map_map]; rfl
    rw [h4]; exact h3
  · intro j t e hex
    have ht : t = [] := by
      have := hI.exec_le
      rw [hex] at this
      simpa using this
    let s1 : QState :=
      { s with executing := t, isIdle := true,
               finishLog := s.finishLog ++ [(j, Outcome.err e)],
               delivered := s.delivered ++ [(j, route (Outcome.err e))] }
    refine ⟨moveQueue s1, ?_, ?_, ?_⟩
    · simp only [qstep]
      rw [hex]
    · rw [moveQueue_delivered]
      rfl
    · intro k ks hp
      rw [moveQueue_start s1 rfl k ks hp]
      refine ⟨?_, rfl, rfl⟩
      show t ++ [k] = [k]
      rw [ht]
      rfl

theorem queue_continuations_exact_witness :
    qrun [QLabel.enqueue, QLabel.enqueue] =
      some { nextId := 2, pending := [1], isIdle := false, executing := [0],
             startedLog := [0], finishLog := [], delivered := [] } ∧
    (let s : QState :=
      { nextId := 2, pending := [1], isIdle := false, executing := [0],
        startedLog := [0], finishLog := [], delivered := [] }
     (s.delivered.map Prod.fst).Nodup ∧
     s.delivered = s.finishLog.map (fun p => (p.1, route p.2)) ∧
     (∀ j t e, s.executing = j :: t →
       ∃ s', qstep s (QLabel.finish (Outcome.err e)) = some s' ∧
         s'.delivered = s.delivered ++ [(j, Cont.rejected e)] ∧
         ∀ k ks, s.pending = k :: ks →
           s'.executing = [k] ∧ s'.pending = ks ∧
           s'.startedLog = s.startedLog ++ [k])) :=
  ⟨by decide, queue_continuations_exact [QLabel.enqueue, QLabel.enqueue] _ (by decide)⟩

/-- C4: job bodies start in exactly the order the jobs were enqueued — the
start log of every reachable state is the initial segment `0, 1, 2, …` of the
enqueue numbering — and every started job except the at-most-one currently
executing has already completed, so a later-enqueued body never starts before
an earlier-enqueued body has finished. -/
theorem queue_fifo_start_order (ls : List QLabel) (s : QState)
    (h : qrun ls = some s) :
    s.startedLog = List.range s.startedLog.length ∧
    s.finishLog.map Prod.fst ++ s.executing = s.startedLog ∧
    s.executing.length ≤ 1 := by
  have hI := qinv_run h
  refine ⟨?_, hI.finished_exec, hI.exec_le⟩
  have h1 : (s.startedLog ++ s.pending).take s.startedLog.length = s.startedLog :=
    List.take_left _ _
  rw [hI.started_pending, List.take_range] at h1
  have h2 : s.startedLog.length ≤ s.nextId := by
    have := congrArg List.length hI.started_pending
    simp only [List.length_append, List.length_range] at this
    omega
  rw [Nat.min_eq_left h2] at h1
  exact h1.symm

theorem queue_fifo_start_order_witness :
    qrun [QLabel.enqueue, QLabel.enqueue, QLabel.enqueue,
          QLabel.finish (Outcome.err "boom")] =
      some { nextId := 3, pending := [2], isIdle := false, executing := [1],
             startedLog := [0, 1], finishLog := [(0, Outcome.err "boom")],
             delivered := [(0, Cont.rejected "boom")] } ∧
    (let s : QState :=
      { nextId := 3, pending := [2], isIdle := false, executing := [1],
        startedLog := [0, 1], finishLog := [(0, Outcome.err "boom")],
        delivered := [(0, Cont.rejected "boom")] }
     s.startedLog = List.range s.startedLog.length ∧
     s.finishLog.map Prod.fst ++ s.executing = s.startedLog ∧
     s.executing.length ≤ 1) :=
  ⟨by decide, queue_fifo_start_order [QLabel.enqueue, QLabel.enqueue, QLabel.enqueue,
      QLabel.finish (Outcome.err "boom")] _ (by decide)⟩

/-! ## The memoizing blur cache (`blurImage`, `src/index.js` lines 37-68)

`NodeCache` (`new NodeCache({ stdTTL: 3600 })`) is modelled as a map from keys
to an expiry instant and a value; `get` evaluates expiry lazily at read time,
`set` stamps `now + stdTTL`.  The `sharp(inputPath).blur(blurLevel).toBuffer()`
pipeline is modelled as an abstract provider `String → Except ε Bytes` (it
both reads the source image and blurs it; either can fail).  The returned
`Bool` records whether the provider was invoked, mirroring the call counter
the spec proposes as the observable. -/

abbrev Bytes := List Nat

/-- `NodeCache` stdTTL, seconds (`src/index.js` line 38). -/
def stdTTL : Nat := 3600

def Cache : Type := String → Option (Nat × Bytes)

def emptyCache : Cache := fun _ => none

/-- `cache.get(key)` with lazy expiry at read time. -/
def cacheGet (c : Cache) (now : Nat) (k : String) : Option Bytes :=
  match c k with
  | some ev => if now < ev.1 then some ev.2 else none
  | none => none

/-- `cache.set(key, value)`: overwrite, restart the expiry clock. -/
def cacheSet (c : Cache) (now : Nat) (k : String) (v : Bytes) : Cache :=
  fun k' => if k' = k then some (now + stdTTL, v) else c k'

/-- `path.basename`: the last `/`-separated component. -/
def basename (p : String) : String :=
  ⟨p.toList.foldl (fun acc ch => if ch = '/' then [] else acc ++ [ch]) []⟩

/-- The cache key `` `blurred_${path.basename(inputPath)}` `` (lines 51, 61). -/
def blurKey (p : String) : String := "blurred_" ++ basename p

/-- `blurImage` (lines 49-68): on a cache hit return the cached buffer without
touching the provider; on a miss invoke the provider, cache the result on
success, and on failure log and rethrow the provider's error unchanged (the
`catch` block at lines 64-67 does not wrap the error).  Returns the result,
the cache state after the call, and whether the provider was invoked. -/
def blurImage {ε : Type} (sharpBlur : String → Except ε Bytes)
    (c : Cache) (now : Nat) (inputPath : String) :
    Except ε Bytes × Cache × Bool :=
  match cacheGet c now (blurKey inputPath) with
  | some v => (.ok v, c, false)
  | none =>
    match sharpBlur inputPath with
    | .ok buf => (.ok buf, cacheSet c now (blurKey inputPath) buf, true)
    | .error e => (.error e, c, true)

/-- After any successful `blurImage` call, the cache maps the key to the
returned bytes with some expiry instant. -/
theorem blurImage_ok_cached {ε : Type} (f : String → Except ε Bytes)
    (c : Cache) (t : Nat) (p : String) (v : Bytes) (c₁ : Cache) (b : Bool)
    (h : blurImage f c t p = (.ok v, c₁, b)) :
    ∃ exp, c₁ (blurKey p) = some (exp, v) := by
  unfold blurImage at h
  cases hg : cacheGet c t (blurKey p) with
  | some w =>
    rw [hg] at h
    simp only [Prod.mk.injEq, Except.ok.injEq] at h
    obtain ⟨h1, h2, h3⟩ := h
    unfold cacheGet at hg
    cases hck : c (blurKey p) with
    | some ew =>
      rw [hck] at hg
      by_cases ht : t < ew.1
      · have hg2 : some ew.2 = some w := by
          rw [← hg]
          show some ew.2 = if t < ew.1 then some ew.2 else none
          rw [if_pos ht]
        refine ⟨ew.1, ?_⟩
        rw [← h2, hck, Option.some.injEq]
        have hw : ew.2 = w := Option.some.inj hg2
        calc ew = (ew.1, ew.2) := rfl
          _ = (ew.1, v) := by rw [hw, h1]
      · exfalso
        have : (none : Option Bytes) = some w := by
          rw [← hg]
          show none = if t < ew.1 then some ew.2 else none
          rw [if_neg ht]
        exact absurd this (by simp)
    | none => rw [hck] at hg; exact absurd hg (by simp)
  | none =>
    rw [hg] at h
    cases hf : f p with
    | ok buf =>
      rw [hf] at h
      simp only [Prod.mk.injEq, Except.ok.injEq] at h
      obtain ⟨h1, h2, h3⟩ := h
      refine ⟨t + stdTTL, ?_⟩
      rw [← h2]
      unfold cacheSet
      rw [if_pos rfl, h1]
    | error e =>
      rw [hf] at h
      simp only [Prod.mk.injEq] at h
      exact absurd h.1 (by simp)

/-- C7: once a `blurImage` call has succeeded for an identifier, a later call
whose cached entry has not yet expired returns byte-identical output, leaves
the cache untouched, and neither invokes the sharp read-and-blur provider nor
recomputes the blur (the returned flag is `false`). -/
theorem blur_cache_hit {ε : Type} (f : String → Except ε Bytes)
    (c : Cache) (t₁ t₂ : Nat) (p : String) (v : Bytes) (c₁ : Cache) (b : Bool)
    (h : blurImage f c t₁ p = (.ok v, c₁, b))
    (hlive : cacheGet c₁ t₂ (blurKey p) ≠ none) :
    blurImage f c₁ t₂ p = (.ok v, c₁, false) := by
  obtain ⟨exp, hc⟩ := blurImage_ok_cached f c t₁ p v c₁ b h
  by_cases ht : t₂ < exp
  · have hg : cacheGet c₁ t₂ (blurKey p) = some v := by
      unfold cacheGet
      rw [hc]
      show (if t₂ < exp then some v else none) = some v
      rw [if_pos ht]
    unfold blurImage
    rw [hg]
  · exfalso
    apply hlive
    unfold cacheGet
    rw [hc]
    show (if t₂ < exp then some v else none) = none
    rw [if_neg ht]

theorem blur_cache_hit_witness :
    blurImage (fun _ => (Except.ok [7] : Except String Bytes)) emptyCache 0 "cat.png"
      = (Except.ok [7], cacheSet emptyCache 0 (blurKey "cat.png") [7], true) ∧
    cacheGet (cacheSet emptyCache 0 (blurKey "cat.png") [7]) 1 (blurKey "cat.png") ≠ none ∧
    blurImage (fun _ => (Except.ok [7] : Except String Bytes))
        (cacheSet emptyCache 0 (blurKey "cat.png") [7]) 1 "cat.png"
      = (Except.ok [7], cacheSet emptyCache 0 (blurKey "cat.png") [7], false) :=
  ⟨rfl, by decide,
   blur_cache_hit (fun _ => (Except.ok [7] : Except String Bytes)) emptyCache 0 1
     "cat.png" [7] (cacheSet emptyCache 0 (blurKey "cat.png") [7]) true rfl (by decide)⟩

/-- C8 counterexample: the `catch` block of `blurImage` (lines 64-67) rethrows
the provider's error unchanged — there is no `ImagePreparationError` wrapper in
the code.  Two calls with distinct identifiers fail with the literally
identical error value `"boom"`, so the failure value cannot carry the
identifier. -/
theorem blur_failure_raw_error :
    ("cat.png" : String) ≠ "dog.png" ∧
    blurImage (fun _ => (Except.error "boom" : Except String Bytes))
        emptyCache 0 "cat.png" = (Except.error "boom", emptyCache, true) ∧
    blurImage (fun _ => (Except.error "boom" : Except String Bytes))
        emptyCache 0 "dog.png" = (Except.error "boom", emptyCache, true) :=
  ⟨by decide, rfl, rfl⟩

/-- C8 (amended): if the source image cannot be read or the blur fails, the
call fails by propagating the provider's own error unchanged, and no entry for
the identifier is written to the cache — the cache state after the call is the
cache state before it. -/
theorem blur_failure_no_cache {ε : Type} (f : String → Except ε Bytes)
    (c : Cache) (t : Nat) (p : String) (e : ε)
    (hmiss : cacheGet c t (blurKey p) = none) (hf : f p = .error e) :
    blurImage f c t p = (.error e, c, true) := by
  unfold blurImage
  rw [hmiss, hf]

theorem blur_failure_no_cache_witness :
    cacheGet emptyCache 0 (blurKey "cat.png") = none ∧
    (fun _ : String => (Except.error "boom" : Except String Bytes)) "cat.png"
      = Except.error "boom" ∧
    blurImage (fun _ => (Except.error "boom" : Except String Bytes))
        emptyCache 0 "cat.png" = (Except.error "boom", emptyCache, true) :=
  ⟨rfl, rfl,
   blur_failure_no_cache (fun _ => (Except.error "boom" : Except String Bytes))
     emptyCache 0 "cat.png" "boom" rfl rfl⟩

/-! ## The flood-fill background remover (`src/index.js` lines 227-306)

The handler decodes the rendered image with Jimp, samples the background
reference color at pixel (0,0), seeds a worklist with every border coordinate,
and runs a visited-masked flood fill: a popped coordinate that is in bounds,
unvisited and within `tolerance` Euclidean RGB distance of the reference color
has its pixel set to `0x00000000` and its four axis-aligned neighbours pushed.

Coordinates are `Int` pairs exactly as in the JavaScript (the bottom-edge seed
is `(x, height - 1)`, which is `(x, -1)` for a zero-height image, and neighbour
offsets can go to `-1`); the in-bounds check at the top of the loop mirrors
`x < 0 || x >= width || y < 0 || y >= height`.

The source compares `Math.sqrt((Δr)² + (Δg)² + (Δb)²) <= tolerance`.  All
quantities are integers (channels 0–255, tolerance 30), the squared distance
is at most 3·255² = 195075, every such integer and its comparison bound are
exactly representable as doubles, and IEEE-754 `sqrt` is correctly rounded, so
the comparison holds iff `(Δr)² + (Δg)² + (Δb)² ≤ tolerance²` over ℤ (for
`d ≤ t²` the real root is `≤ t` and rounding cannot cross the representable
bound `t`; for `d ≥ t² + 1` the root exceeds `t` by far more than one ulp).
The embedding therefore compares squared distances, `dist2 ≤ tol²`. -/

/-- One RGBA pixel, channels 0–255. -/
structure RGBA where
  r : Nat
  g : Nat
  b : Nat
  a : Nat
deriving DecidableEq, Repr

/-- `0x00000000`, the value `setPixelColor` writes: all four channels zero. -/
def clearPixel : RGBA := ⟨0, 0, 0, 0⟩

/-- A decoded bitmap: `image.bitmap.width/height` and the row-major pixel
sequence. -/
structure Image where
  width : Nat
  height : Nat
  data : List RGBA
deriving DecidableEq, Repr

/-- Row-major index of an in-bounds coordinate. -/
def idxOf (w : Nat) (x y : Int) : Nat := y.toNat * w + x.toNat

/-- `image.getPixelColor(x, y)` on a row-major buffer. -/
def pixAt (w : Nat) (data : List RGBA) (x y : Int) : RGBA :=
  data.getD (idxOf w x y) clearPixel

/-- `image.setPixelColor(v, x, y)` on a row-major buffer. -/
def setAt (w : Nat) (data : List RGBA) (x y : Int) (v : RGBA) : List RGBA :=
  data.set (idxOf w x y) v

/-- The bounds check of lines 268-270, as the negation of
`x < 0 || x >= width || y < 0 || y >= height`. -/
def inB (w h : Nat) (x y : Int) : Bool :=
  decide (0 ≤ x) && decide (x < (w : Int)) && decide (0 ≤ y) && decide (y < (h : Int))

/-- Squared Euclidean RGB distance (lines 282-286, squared; see the section
comment for why `sqrt(d) <= tol` is exactly `d ≤ tol²`). -/
def dist2 (p q : RGBA) : Int :=
  ((p.r : Int) - q.r) ^ 2 + ((p.g : Int) - q.g) ^ 2 + ((p.b : Int) - q.b) ^ 2

/-- The four axis-aligned neighbours, in the code's order: left, right, up,
down (lines 258-263). -/
def nbrs (x y : Int) : List (Int × Int) :=
  [(x - 1, y), (x + 1, y), (x, y - 1), (x, y + 1)]

/-- The flood-fill context fixed for one invocation: dimensions, the reference
color sampled once at (0,0), and the tolerance. -/
structure Ctx where
  width : Nat
  height : Nat
  bg : RGBA
  tol : Nat

/-- Mutable state of the loop: the pixel buffer, the visited mask and the
worklist. -/
structure FloodState where
  data : List RGBA
  visited : Finset (Int × Int)
  queue : List (Int × Int)
deriving DecidableEq

/-- The body of the `while` loop for one popped coordinate (lines 266-304,
after the `shift`): skip when out of bounds or visited; otherwise mark
visited, compare the pixel's distance to the reference color, and on a match
clear the pixel and push the in-bounds not-yet-visited neighbours. -/
def floodStep (c : Ctx) (x y : Int) (s : FloodState) : FloodState :=
  if inB c.width c.height x y then
    if (x, y) ∈ s.visited then s
    else
      let visited' := insert (x, y) s.visited
      if dist2 (pixAt c.width s.data x y) c.bg ≤ (c.tol : Int) ^ 2 then
        { data := setAt c.width s.data x y clearPixel,
          visited := visited',
          queue := s.queue ++ (nbrs x y).filter
            (fun q => inB c.width c.height q.1 q.2 && !decide (q ∈ visited')) }
      else
        { s with visited := visited' }
  else s

/-- The `while (queue.length > 0)` loop with `queue.shift()` (FIFO), indexed
by fuel; `none` means the fuel ran out with work left. -/
def floodLoop (c : Ctx) (fuel : Nat) (s : FloodState) : Option FloodState :=
  match fuel, s.queue with
  | _, [] => some s
  | 0, _ :: _ => none
  | fuel + 1, (x, y) :: rest => floodLoop c fuel (floodStep c x y { s with queue := rest })

/-- The same loop with `queue.pop()` (LIFO: take the last element) and
everything else unchanged — the variant claim C10 compares against. -/
def floodLoopL (c : Ctx) (fuel : Nat) (s : FloodState) : Option FloodState :=
  match fuel, s.queue with
  | _, [] => some s
  | 0, _ :: _ => none
  | fuel + 1, q :: qs =>
    let p := (q :: qs).getLast (List.cons_ne_nil q qs)
    floodLoopL c fuel (floodStep c p.1 p.2 { s with queue := (q :: qs).dropLast })

/-- The border seeding of lines 248-255: for each `x`, `(x, 0)` and
`(x, height - 1)`; then for `y = 1 … height - 2`, `(0, y)` and
`(width - 1, y)`. -/
def initQueue (w h : Nat) : List (Int × Int) :=
  ((List.range w).flatMap fun x => [((x : Int), 0), ((x : Int), (h : Int) - 1)]) ++
  ((List.range' 1 (h - 2)).flatMap fun y => [(0, (y : Int)), ((w : Int) - 1, (y : Int))])

/-- The per-invocation context: `tolerance` and
`bgRGBA = Jimp.intToRGBA(image.getPixelColor(0, 0))` (lines 231-233). -/
def mkCtx (img : Image) (tol : Nat) : Ctx :=
  ⟨img.width, img.height, pixAt img.width img.data 0 0, tol⟩

/-- Fuel sufficient for the loop to drain (proved in `floodLoop_run`). -/
def stripFuel (img : Image) : Nat :=
  5 * (img.width * img.height) + (initQueue img.width img.height).length

/-- The whole background-removal pass on a decoded image: seed the border,
run the flood fill, return the mutated image (`none` only if the fuel bound
were insufficient, which `strip_terminates` rules out). -/
def strip (img : Image) (tol : Nat) : Option Image :=
  (floodLoop (mkCtx img tol) (stripFuel img)
      ⟨img.data, ∅, initQueue img.width img.height⟩).map
    fun s => { img with data := s.data }

/-- `strip` with the LIFO worklist variant. -/
def stripL (img : Image) (tol : Nat) : Option Image :=
  (floodLoopL (mkCtx img tol) (stripFuel img)
      ⟨img.data, ∅, initQueue img.width img.height⟩).map
    fun s => { img with data := s.data }

/-- A coordinate is a border coordinate: top row, bottom row, left column or
right column. -/
def isBorder (w h : Nat) (x y : Int) : Prop :=
  y = 0 ∨ y = (h : Int) - 1 ∨ x = 0 ∨ x = (w : Int) - 1

instance (w h : Nat) (x y : Int) : Decidable (isBorder w h x y) := by
  unfold isBorder; infer_instance

/-- The pixel at a coordinate of the original buffer is within tolerance of
the reference color. -/
def inTol (c : Ctx) (orig : List RGBA) (x y : Int) : Prop :=
  dist2 (pixAt c.width orig x y) c.bg ≤ (c.tol : Int) ^ 2

instance (c : Ctx) (orig : List RGBA) (x y : Int) : Decidable (inTol c orig x y) := by
  unfold inTol; infer_instance

/-- Reachability from the border through a 4-connected path of pixels each
within tolerance of the reference color, evaluated on the original buffer. -/
inductive Reach (c : Ctx) (orig : List RGBA) : Int → Int → Prop where
  | border (x y : Int) : inB c.width c.height x y = true →
      isBorder c.width c.height x y → inTol c orig x y → Reach c orig x y
  | step (x y x' y' : Int) : Reach c orig x y → (x', y') ∈ nbrs x y →
      inB c.width c.height x' y' = true → inTol c orig x' y' → Reach c orig x' y'

theorem reach_inTol {c : Ctx} {orig : List RGBA} {x y : Int}
    (h : Reach c orig x y) : inTol c orig x y := by
  cases h with
  | border _ _ _ _ ht => exact ht
  | step _ _ _ _ _ _ _ ht => exact ht

/-! ### Buffer and grid helper lemmas -/

theorem getD_set_same (l : List RGBA) (i : Nat) :
    (l.set i clearPixel).getD i clearPixel = clearPixel := by
  by_cases h : i < l.length
  · rw [List.getD_eq_getElem?_getD, List.getElem?_set_self h]
    rfl
  · rw [List.set_eq_of_length_le (Nat.le_of_not_lt h), List.getD_eq_getElem?_getD,
        List.getElem?_eq_none (Nat.le_of_not_lt h)]
    rfl

theorem getD_set_ne (l : List RGBA) (i j : Nat) (v : RGBA) (h : i ≠ j) :
    (l.set i v).getD j clearPixel = l.getD j clearPixel := by
  rw [List.getD_eq_getElem?_getD, List.getD_eq_getElem?_getD, List.getElem?_set_ne h]

theorem inB_elim {w h : Nat} {x y : Int} (hin : inB w h x y = true) :
    0 ≤ x ∧ x < (w : Int) ∧ 0 ≤ y ∧ y < (h : Int) := by
  unfold inB at hin
  simp only [Bool.and_eq_true, decide_eq_true_eq] at hin
  exact ⟨hin.1.1.1, hin.1.1.2, hin.1.2, hin.2⟩

theorem inB_intro {w h : Nat} {x y : Int} (h1 : 0 ≤ x) (h2 : x < (w : Int))
    (h3 : 0 ≤ y) (h4 : y < (h : Int)) : inB w h x y = true := by
  unfold inB
  simp only [Bool.and_eq_true, decide_eq_true_eq]
  exact ⟨⟨⟨h1, h2⟩, h3⟩, h4⟩

theorem idxOf_inj {w h : Nat} {x y x' y' : Int}
    (hin : inB w h x y = true) (hin' : inB w h x' y' = true)
    (heq : idxOf w x y = idxOf w x' y') : x = x' ∧ y = y' := by
  obtain ⟨hx0, hxw, hy0, hyh⟩ := inB_elim hin
  obtain ⟨hx0', hxw', hy0', hyh'⟩ := inB_elim hin'
  unfold idxOf at heq
  have hxwn : x.toNat < w := by omega
  have hxwn' : x'.toNat < w := by omega
  have hw0 : 0 < w := by omega
  have ex : x.toNat = x'.toNat := by
    have e1 : (y.toNat * w + x.toNat) % w = x.toNat := by
      rw [Nat.mul_comm, Nat.mul_add_mod, Nat.mod_eq_of_lt hxwn]
    have e2 : (y'.toNat * w + x'.toNat) % w = x'.toNat := by
      rw [Nat.mul_comm, Nat.mul_add_mod, Nat.mod_eq_of_lt hxwn']
    rw [← e1, ← e2, heq]
  have ey : y.toNat = y'.toNat := by
    have d1 : (y.toNat * w + x.toNat) / w = y.toNat := by
      rw [Nat.mul_comm, Nat.mul_add_div hw0, Nat.div_eq_of_lt hxwn]
      omega
    have d2 : (y'.toNat * w + x'.toNat) / w = y'.toNat := by
      rw [Nat.mul_comm, Nat.mul_add_div hw0, Nat.div_eq_of_lt hxwn']
      omega
    rw [← d1, ← d2, heq]
  constructor <;> omega

/-- All in-bounds coordinates, as a finite set. -/
def gridF (w h : Nat) : Finset (Int × Int) :=
  (Finset.range w ×ˢ Finset.range h).image fun p => ((p.1 : Int), (p.2 : Int))

theorem mem_gridF {w h : Nat} {x y : Int} :
    (x, y) ∈ gridF w h ↔ inB w h x y = true := by
  unfold gridF
  simp only [Finset.mem_image, Finset.mem_product, Finset.mem_range, Prod.exists,
    Prod.mk.injEq]
  constructor
  · rintro ⟨a, b, ⟨ha, hb⟩, hx, hy⟩
    exact inB_intro (by omega) (by omega) (by omega) (by omega)
  · intro hin
    obtain ⟨hx0, hxw, hy0, hyh⟩ := inB_elim hin
    exact ⟨x.toNat, y.toNat, ⟨by omega, by omega⟩, by omega, by omega⟩

theorem card_gridF (w h : Nat) : (gridF w h).card = w * h := by
  unfold gridF
  rw [Finset.card_image_of_injective _ ?_, Finset.card_product,
      Finset.card_range, Finset.card_range]
  intro p q hpq
  simp only [Prod.mk.injEq] at hpq
  have h1 : p.1 = q.1 := by omega
  have h2 : p.2 = q.2 := by omega
  exact Prod.ext h1 h2

/-! ### The flood-fill loop invariant -/

/-- The inductive invariant of the flood-fill loop, relative to the fixed
context `c` and the pristine input buffer `orig`. -/
structure FInv (c : Ctx) (orig : List RGBA) (s : FloodState) : Prop where
  vis_inB : ∀ p ∈ s.visited, inB c.width c.height p.1 p.2 = true
  data_len : s.data.length = orig.length
  cleared : ∀ p ∈ s.visited, inTol c orig p.1 p.2 →
      s.data.getD (idxOf c.width p.1 p.2) clearPixel = clearPixel
  untouched : ∀ x y : Int, inB c.width c.height x y = true →
      ((x, y) ∉ s.visited ∨ ¬ inTol c orig x y) →
      s.data.getD (idxOf c.width x y) clearPixel
        = orig.getD (idxOf c.width x y) clearPixel
  out_idx : ∀ i : Nat,
      (∀ x y : Int, inB c.width c.height x y = true → i ≠ idxOf c.width x y) →
      s.data.getD i clearPixel = orig.getD i clearPixel
  frontier : ∀ p ∈ s.visited, inTol c orig p.1 p.2 →
      ∀ q ∈ nbrs p.1 p.2, inB c.width c.height q.1 q.2 = true →
      q ∈ s.visited ∨ q ∈ s.queue
  border_covered : ∀ x y : Int, inB c.width c.height x y = true →
      isBorder c.width c.height x y → (x, y) ∈ s.visited ∨ (x, y) ∈ s.queue
  queue_sound : ∀ p ∈ s.queue,
      isBorder c.width c.height p.1 p.2 ∨
      ∃ q : Int × Int, Reach c orig q.1 q.2 ∧ p ∈ nbrs q.1 q.2
  vis_reach : ∀ p ∈ s.visited, inTol c orig p.1 p.2 → Reach c orig p.1 p.2

theorem mem_initQueue_of_border {w h : Nat} {x y : Int}
    (hin : inB w h x y = true) (hb : isBorder w h x y) :
    (x, y) ∈ initQueue w h := by
  obtain ⟨hx0, hxw, hy0, hyh⟩ := inB_elim hin
  unfold initQueue
  by_cases hrow : y = 0 ∨ y = (h : Int) - 1
  · apply List.mem_append_left
    rw [List.mem_flatMap]
    refine ⟨x.toNat, List.mem_range.mpr (by omega), ?_⟩
    simp only [List.mem_cons, List.not_mem_nil, or_false, Prod.mk.injEq]
    rcases hrow with h0 | h1
    · exact Or.inl ⟨by omega, h0⟩
    · exact Or.inr ⟨by omega, h1⟩
  · have hcol : x = 0 ∨ x = (w : Int) - 1 := by
      rcases hb with h0 | h1 | h2 | h3
      · exact absurd (Or.inl h0) hrow
      · exact absurd (Or.inr h1) hrow
      · exact Or.inl h2
      · exact Or.inr h3
    apply List.mem_append_right
    rw [List.mem_flatMap]
    refine ⟨y.toNat, List.mem_range'_1.mpr ⟨by omega, by omega⟩, ?_⟩
    simp only [List.mem_cons, List.not_mem_nil, or_false, Prod.mk.injEq]
    rcases hcol with h2 | h3
    · exact Or.inl ⟨h2, by omega⟩
    · exact Or.inr ⟨h3, by omega⟩

theorem initQueue_isBorder {w h : Nat} {p : Int × Int} (hp : p ∈ initQueue w h) :
    isBorder w h p.1 p.2 := by
  unfold initQueue at hp
  rcases List.mem_append.mp hp with h1 | h2
  · rw [List.mem_flatMap] at h1
    obtain ⟨a, _, hmem⟩ := h1
    simp only [List.mem_cons, List.not_mem_nil, or_false] at hmem
    rcases hmem with he | he
    · subst he; exact Or.inl rfl
    · subst he; exact Or.inr (Or.inl rfl)
  · rw [List.mem_flatMap] at h2
    obtain ⟨b, _, hmem⟩ := h2
    simp only [List.mem_cons, List.not_mem_nil, or_false] at hmem
    rcases hmem with he | he
    · subst he; exact Or.inr (Or.inr (Or.inl rfl))
    · subst he; exact Or.inr (Or.inr (Or.inr rfl))

theorem finv_init (img : Image) (tol : Nat) :
    FInv (mkCtx img tol) img.data ⟨img.data, ∅, initQueue img.width img.height⟩ := by
  constructor
  · intro p hp; exact absurd hp (Finset.not_mem_empty p)
  · rfl
  · intro p hp _; exact absurd hp (Finset.not_mem_empty p)
  · intro x y _ _; rfl
  · intro i _; rfl
  · intro p hp _; exact absurd hp (Finset.not_mem_empty p)
  · intro x y hin hb
    exact Or.inr (mem_initQueue_of_border hin hb)
  · intro p hp
    exact Or.inl (initQueue_isBorder hp)
  · intro p hp _; exact absurd hp (Finset.not_mem_empty p)

theorem mem_split {α : Type} {q p : α} {L₁ L₂ : List α}
    (h : q ∈ L₁ ++ p :: L₂) : q = p ∨ q ∈ L₁ ++ L₂ := by
  rw [List.mem_append, List.mem_cons] at h
  rw [List.mem_append]
  tauto

theorem mem_unsplit {α : Type} {q : α} (p : α) {L₁ L₂ : List α}
    (h : q ∈ L₁ ++ L₂) : q ∈ L₁ ++ p :: L₂ := by
  rw [List.mem_append] at h ⊢
  rcases h with h | h
  · exact Or.inl h
  · exact Or.inr (List.mem_cons_of_mem p h)

/-- Dropping a queue element that is covered (visited whenever it is in
bounds) preserves the invariant. -/
theorem finv_drop (c : Ctx) (orig : List RGBA) (s : FloodState) (x y : Int)
    (L₁ L₂ : List (Int × Int)) (hq : s.queue = L₁ ++ (x, y) :: L₂)
    (hI : FInv c orig s)
    (hcov : inB c.width c.height x y = true → (x, y) ∈ s.visited) :
    FInv c orig { s with queue := L₁ ++ L₂ } := by
  constructor
  · exact hI.vis_inB
  · exact hI.data_len
  · exact hI.cleared
  · exact hI.untouched
  · exact hI.out_idx
  · intro p hp ht q hqn hqin
    rcases hI.frontier p hp ht q hqn hqin with hv | hqu
    · exact Or.inl hv
    · rw [hq] at hqu
      rcases mem_split hqu with he | hmem
      · subst he
        exact Or.inl (hcov hqin)
      · exact Or.inr hmem
  · intro x' y' hin' hb
    rcases hI.border_covered x' y' hin' hb with hv | hqu
    · exact Or.inl hv
    · rw [hq] at hqu
      rcases mem_split hqu with he | hmem
      · rw [Prod.mk.injEq] at he
        obtain ⟨h1, h2⟩ := he
        subst h1; subst h2
        exact Or.inl (hcov hin')
      · exact Or.inr hmem
  · intro p hp
    exact hI.queue_sound p (by rw [hq]; exact mem_unsplit (x, y) hp)
  · exact hI.vis_reach

/-- Preservation of the invariant by one loop iteration, for any position of
the popped element in the worklist (front for the FIFO loop, back for the
LIFO variant). -/
theorem finv_step (c : Ctx) (orig : List RGBA) (s : FloodState) (x y : Int)
    (L₁ L₂ : List (Int × Int)) (hq : s.queue = L₁ ++ (x, y) :: L₂)
    (hI : FInv c orig s) :
    FInv c orig (floodStep c x y { s with queue := L₁ ++ L₂ }) := by
  have hxyq : (x, y) ∈ s.queue := by
    rw [hq]
    exact List.mem_append_right _ (List.mem_cons_self _ _)
  unfold floodStep
  by_cases hin : inB c.width c.height x y = true
  case neg =>
    rw [if_neg (by simpa using hin)]
    exact finv_drop c orig s x y L₁ L₂ hq hI (fun hc => absurd hc hin)
  rw [if_pos (by simpa using hin)]
  by_cases hvis : (x, y) ∈ s.visited
  · rw [if_pos hvis]
    exact finv_drop c orig s x y L₁ L₂ hq hI (fun _ => hvis)
  rw [if_neg hvis]
  have hmatch : dist2 (pixAt c.width s.data x y) c.bg ≤ (c.tol : Int) ^ 2
      ↔ inTol c orig x y := by
    unfold inTol pixAt
    rw [hI.untouched x y hin (Or.inl hvis)]
  by_cases htol : dist2 (pixAt c.width s.data x y) c.bg ≤ (c.tol : Int) ^ 2
  · rw [if_pos htol]
    have hTol : inTol c orig x y := hmatch.mp htol
    have hReach : Reach c orig x y := by
      rcases hI.queue_sound (x, y) hxyq with hb | ⟨q, hrq, hmemn⟩
      · exact Reach.border x y hin hb hTol
      · exact Reach.step q.1 q.2 x y hrq hmemn hin hTol
    constructor
    · intro p hp
      rcases Finset.mem_insert.mp hp with he | hmem
      · subst he; exact hin
      · exact hI.vis_inB p hmem
    · rw [show (setAt c.width s.data x y clearPixel).length = s.data.length from
        List.length_set s.data _ _]
      exact hI.data_len
    · intro p hp ht
      rcases Finset.mem_insert.mp hp with he | hmem
      · subst he
        exact getD_set_same s.data _
      · by_cases hidx : idxOf c.width p.1 p.2 = idxOf c.width x y
        · unfold setAt
          rw [hidx]
          exact getD_set_same s.data _
        · unfold setAt
          rw [getD_set_ne s.data _ _ _ (fun hcontra => hidx hcontra.symm)]
          exact hI.cleared p hmem ht
    · intro x' y' hin' hcase
      by_cases hxy' : (x', y') = (x, y)
      · exfalso
        rw [Prod.mk.injEq] at hxy'
        obtain ⟨h1, h2⟩ := hxy'
        subst h1; subst h2
        rcases hcase with hni | hnt
        · exact hni (Finset.mem_insert_self _ _)
        · exact hnt hTol
      · have hne : idxOf c.width x y ≠ idxOf c.width x' y' := by
          intro hcontra
          obtain ⟨h1, h2⟩ := idxOf_inj hin hin' hcontra
          exact hxy' (by rw [Prod.mk.injEq]; exact ⟨h1.symm, h2.symm⟩)
        unfold setAt
        rw [getD_set_ne s.data _ _ _ hne]
        apply hI.untouched x' y' hin'
        rcases hcase with hni | hnt
        · exact Or.inl (fun hc => hni (Finset.mem_insert_of_mem hc))
        · exact Or.inr hnt
    · intro i hi
      unfold setAt
      rw [getD_set_ne s.data _ _ _ (fun hcontra => hi x y hin hcontra.symm)]
      exact hI.out_idx i hi
    · intro p hp ht q hqn hqin
      rcases Finset.mem_insert.mp hp with he | hmem
      · subst he
        by_cases hqv : q ∈ insert (x, y) s.visited
        · exact Or.inl hqv
        · refine Or.inr (List.mem_append_right _ ?_)
          rw [List.mem_filter]
          refine ⟨hqn, ?_⟩
          rw [Bool.and_eq_true]
          exact ⟨hqin, by simpa using hqv⟩
      · rcases hI.frontier p hmem ht q hqn hqin with hv | hqu
        · exact Or.inl (Finset.mem_insert_of_mem hv)
        · rw [hq] at hqu
          rcases mem_split hqu with he | hmem2
          · subst he
            exact Or.inl (Finset.mem_insert_self _ _)
          · exact Or.inr (List.mem_append_left _ hmem2)
    · intro x' y' hin' hb
      rcases hI.border_covered x' y' hin' hb with hv | hqu
      · exact Or.inl (Finset.mem_insert_of_mem hv)
      · rw [hq] at hqu
        rcases mem_split hqu with he | hmem
        · rw [Prod.mk.injEq] at he
          obtain ⟨h1, h2⟩ := he
          subst h1; subst h2
          exact Or.inl (Finset.mem_insert_self _ _)
        · exact Or.inr (List.mem_append_left _ hmem)
    · intro p hp
      rcases List.mem_append.mp hp with hmem | hnew
      · exact hI.queue_sound p (by rw [hq]; exact mem_unsplit (x, y) hmem)
      · rw [List.mem_filter] at hnew
        exact Or.inr ⟨(x, y), hReach, hnew.1⟩
    · intro p hp ht
      rcases Finset.mem_insert.mp hp with he | hmem
      · subst he; exact hReach
      · exact hI.vis_reach p hmem ht
  · rw [if_neg htol]
    have hNotTol : ¬ inTol c orig x y := fun hc => htol (hmatch.mpr hc)
    constructor
    · intro p hp
      rcases Finset.mem_insert.mp hp with he | hmem
      · subst he; exact hin
      · exact hI.vis_inB p hmem
    · exact hI.data_len
    · intro p hp ht
      rcases Finset.mem_insert.mp hp with he | hmem
      · subst he; exact absurd ht hNotTol
      · exact hI.cleared p hmem ht
    · intro x' y' hin' hcase
      apply hI.untouched x' y' hin'
      rcases hcase with hni | hnt
      · exact Or.inl (fun hc => hni (Finset.mem_insert_of_mem hc))
      · exact Or.inr hnt
    · exact hI.out_idx
    · intro p hp ht q hqn hqin
      rcases Finset.mem_insert.mp hp with he | hmem
      · subst he; exact absurd ht hNotTol
      · rcases hI.frontier p hmem ht q hqn hqin with hv | hqu
        · exact Or.inl (Finset.mem_insert_of_mem hv)
        · rw [hq] at hqu
          rcases mem_split hqu with he | hmem2
          · subst he
            exact Or.inl (Finset.mem_insert_self _ _)
          · exact Or.inr hmem2
    · intro x' y' hin' hb
      rcases hI.border_covered x' y' hin' hb with hv | hqu
      · exact Or.inl (Finset.mem_insert_of_mem hv)
      · rw [hq] at hqu
        rcases mem_split hqu with he | hmem
        · rw [Prod.mk.injEq] at he
          obtain ⟨h1, h2⟩ := he
          subst h1; subst h2
          exact Or.inl (Finset.mem_insert_self _ _)
        · exact Or.inr hmem
    · intro p hp
      exact hI.queue_sound p (by rw [hq]; exact mem_unsplit (x, y) hp)
    · intro p hp ht
      rcases Finset.mem_insert.mp hp with he | hmem
      · subst he; exact absurd ht hNotTol
      · exact hI.vis_reach p hmem ht

/-! ### Termination: the loop drains its worklist within the fuel bound -/

/-- Decreasing measure of the loop: every iteration either removes a worklist
entry without visiting (out of bounds / already visited), or visits a fresh
in-bounds pixel, growing the visited mask by one while adding at most four
worklist entries. -/
def fmeasure (c : Ctx) (s : FloodState) : Nat :=
  5 * (c.width * c.height - s.visited.card) + s.queue.length

theorem fmeasure_step (c : Ctx) (orig : List RGBA) (s : FloodState) (x y : Int)
    (L₁ L₂ : List (Int × Int)) (hq : s.queue = L₁ ++ (x, y) :: L₂)
    (hI : FInv c orig s) :
    fmeasure c (floodStep c x y { s with queue := L₁ ++ L₂ }) < fmeasure c s := by
  have hlen : s.queue.length = (L₁ ++ L₂).length + 1 := by
    rw [hq]
    simp only [List.length_append, List.length_cons]
    omega
  unfold floodStep
  by_cases hin : inB c.width c.height x y = true
  case neg =>
    rw [if_neg (by simpa using hin)]
    show 5 * (c.width * c.height - s.visited.card) + (L₁ ++ L₂).length
      < 5 * (c.width * c.height - s.visited.card) + s.queue.length
    omega
  rw [if_pos (by simpa using hin)]
  by_cases hvis : (x, y) ∈ s.visited
  · rw [if_pos hvis]
    show 5 * (c.width * c.height - s.visited.card) + (L₁ ++ L₂).length
      < 5 * (c.width * c.height - s.visited.card) + s.queue.length
    omega
  rw [if_neg hvis]
  have hcard : (insert (x, y) s.visited).card = s.visited.card + 1 :=
    Finset.card_insert_of_not_mem hvis
  have hsub : insert (x, y) s.visited ⊆ gridF c.width c.height := by
    intro q hqm
    rcases Finset.mem_insert.mp hqm with he | hmem
    · subst he
      exact mem_gridF.mpr hin
    · exact mem_gridF.mpr (hI.vis_inB q hmem)
  have hcardle : s.visited.card + 1 ≤ c.width * c.height := by
    have h1 := Finset.card_le_card hsub
    rw [hcard, card_gridF] at h1
    exact h1
  by_cases htol : dist2 (pixAt c.width s.data x y) c.bg ≤ (c.tol : Int) ^ 2
  · rw [if_pos htol]
    have hflen : ((nbrs x y).filter
        (fun q => inB c.width c.height q.1 q.2 && !decide (q ∈ insert (x, y) s.visited))).length
        ≤ 4 := by
      have h1 := List.length_filter_le
        (fun q => inB c.width c.height q.1 q.2 && !decide (q ∈ insert (x, y) s.visited))
        (nbrs x y)
      simpa [nbrs] using h1
    show 5 * (c.width * c.height - (insert (x, y) s.visited).card)
        + ((L₁ ++ L₂) ++ (nbrs x y).filter
            (fun q => inB c.width c.height q.1 q.2 && !decide (q ∈ insert (x, y) s.visited))).length
      < 5 * (c.width * c.height - s.visited.card) + s.queue.length
    rw [List.length_append, hcard]
    omega
  · rw [if_neg htol]
    show 5 * (c.width * c.height - (insert (x, y) s.visited).card) + (L₁ ++ L₂).length
      < 5 * (c.width * c.height - s.visited.card) + s.queue.length
    rw [hcard]
    omega

/-- The FIFO loop drains the worklist and returns a state that still satisfies
the invariant, whenever the fuel covers the measure. -/
theorem floodLoop_run (c : Ctx) (orig : List RGBA) :
    ∀ (fuel : Nat) (s : FloodState), FInv c orig s → fmeasure c s ≤ fuel →
    ∃ r, floodLoop c fuel s = some r ∧ FInv c orig r ∧ r.queue = [] := by
  intro fuel
  induction fuel with
  | zero =>
    intro s hI hm
    cases hqe : s.queue with
    | nil =>
      refine ⟨s, ?_, hI, hqe⟩
      unfold floodLoop
      rw [hqe]
    | cons p rest =>
      exfalso
      have h1 : 1 ≤ s.queue.length := by rw [hqe]; simp
      unfold fmeasure at hm
      omega
  | succ n ih =>
    intro s hI hm
    cases hqe : s.queue with
    | nil =>
      refine ⟨s, ?_, hI, hqe⟩
      unfold floodLoop
      rw [hqe]
    | cons p rest =>
      obtain ⟨x, y⟩ := p
      have hq : s.queue = [] ++ (x, y) :: rest := by simpa using hqe
      have hI2 := finv_step c orig s x y [] rest hq hI
      have hm2 := fmeasure_step c orig s x y [] rest hq hI
      simp only [List.nil_append] at hI2 hm2
      obtain ⟨r, hr, hIr, hqr⟩ :=
        ih (floodStep c x y { s with queue := rest }) hI2 (by omega)
      refine ⟨r, ?_, hIr, hqr⟩
      unfold floodLoop
      rw [hqe]
      exact hr

/-- The LIFO variant drains its worklist under the same invariant and fuel
bound. -/
theorem floodLoopL_run (c : Ctx) (orig : List RGBA) :
    ∀ (fuel : Nat) (s : FloodState), FInv c orig s → fmeasure c s ≤ fuel →
    ∃ r, floodLoopL c fuel s = some r ∧ FInv c orig r ∧ r.queue = [] := by
  intro fuel
  induction fuel with
  | zero =>
    intro s hI hm
    cases hqe : s.queue with
    | nil =>
      refine ⟨s, ?_, hI, hqe⟩
      unfold floodLoopL
      rw [hqe]
    | cons p rest =>
      exfalso
      have h1 : 1 ≤ s.queue.length := by rw [hqe]; simp
      unfold fmeasure at hm
      omega
  | succ n ih =>
    intro s hI hm
    cases hqe : s.queue with
    | nil =>
      refine ⟨s, ?_, hI, hqe⟩
      unfold floodLoopL
      rw [hqe]
    | cons p rest =>
      have hne : (p :: rest : List (Int × Int)) ≠ [] := List.cons_ne_nil p rest
      have hsplit : s.queue
          = (p :: rest).dropLast ++ ((p :: rest).getLast hne) :: [] := by
        rw [hqe]
        exact (List.dropLast_append_getLast hne).symm
      have hI2 := finv_step c orig s ((p :: rest).getLast hne).1
        ((p :: rest).getLast hne).2 ((p :: rest).dropLast) [] (by rw [hsplit]) hI
      have hm2 := fmeasure_step c orig s ((p :: rest).getLast hne).1
        ((p :: rest).getLast hne).2 ((p :: rest).dropLast) [] (by rw [hsplit]) hI
      have happ : (p :: rest).dropLast ++ ([] : List (Int × Int))
          = (p :: rest).dropLast := List.append_nil _
      rw [happ] at hI2 hm2
      obtain ⟨r, hr, hIr, hqr⟩ :=
        ih (floodStep c ((p :: rest).getLast hne).1 ((p :: rest).getLast hne).2
            { s with queue := (p :: rest).dropLast }) hI2 (by omega)
      refine ⟨r, ?_, hIr, hqr⟩
      unfold floodLoopL
      rw [hqe]
      exact hr

/-! ### Final-state characterization: cleared = border-reachable -/

theorem reach_visited {c : Ctx} {orig : List RGBA} {s : FloodState}
    (hI : FInv c orig s) (hq : s.queue = []) {x y : Int}
    (h : Reach c orig x y) : (x, y) ∈ s.visited := by
  induction h with
  | border x y hin hb ht =>
    rcases hI.border_covered x y hin hb with hv | hqu
    · exact hv
    · rw [hq] at hqu
      exact absurd hqu (List.not_mem_nil _)
  | step x y x' y' hr hn hin ht ih =>
    rcases hI.frontier (x, y) ih (reach_inTol hr) (x', y') hn hin with hv | hqu
    · exact hv
    · rw [hq] at hqu
      exact absurd hqu (List.not_mem_nil _)

theorem finv_final (c : Ctx) (orig : List RGBA) (s : FloodState)
    (hI : FInv c orig s) (hq : s.queue = []) :
    ∀ x y : Int, inB c.width c.height x y = true →
      (Reach c orig x y →
        s.data.getD (idxOf c.width x y) clearPixel = clearPixel) ∧
      (¬ Reach c orig x y →
        s.data.getD (idxOf c.width x y) clearPixel
          = orig.getD (idxOf c.width x y) clearPixel) := by
  intro x y hin
  constructor
  · intro hr
    exact hI.cleared (x, y) (reach_visited hI hq hr) (reach_inTol hr)
  · intro hnr
    apply hI.untouched x y hin
    by_cases hv : (x, y) ∈ s.visited
    · by_cases ht : inTol c orig x y
      · exact absurd (hI.vis_reach (x, y) hv ht) hnr
      · exact Or.inr ht
    · exact Or.inl hv

/-- Full specification of `strip`: it terminates, preserves the dimensions and
buffer length, sets exactly the border-reachable within-tolerance pixels to
`clearPixel`, and leaves everything else (including any slack beyond the
`width·height` prefix) untouched. -/
theorem strip_spec (img : Image) (tol : Nat) :
    ∃ out, strip img tol = some out ∧
      out.width = img.width ∧ out.height = img.height ∧
      out.data.length = img.data.length ∧
      (∀ x y : Int, inB img.width img.height x y = true →
        (Reach (mkCtx img tol) img.data x y →
          out.data.getD (idxOf img.width x y) clearPixel = clearPixel) ∧
        (¬ Reach (mkCtx img tol) img.data x y →
          out.data.getD (idxOf img.width x y) clearPixel
            = img.data.getD (idxOf img.width x y) clearPixel)) ∧
      (∀ i : Nat, (∀ x y : Int, inB img.width img.height x y = true →
          i ≠ idxOf img.width x y) →
        out.data.getD i clearPixel = img.data.getD i clearPixel) := by
  have hI0 := finv_init img tol
  have hm0 : fmeasure (mkCtx img tol) ⟨img.data, ∅, initQueue img.width img.height⟩
      ≤ stripFuel img := by
    unfold fmeasure stripFuel
    simp only [Finset.card_empty, Nat.sub_zero]
    exact Nat.le_refl _
  obtain ⟨r, hr, hIr, hqr⟩ :=
    floodLoop_run (mkCtx img tol) img.data (stripFuel img) _ hI0 hm0
  refine ⟨{ img with data := r.data }, ?_, rfl, rfl, hIr.data_len, ?_, hIr.out_idx⟩
  · unfold strip
    rw [hr]
    rfl
  · intro x y hin
    exact finv_final _ _ _ hIr hqr x y hin

/-- The same specification for the LIFO-worklist variant `stripL`. -/
theorem stripL_spec (img : Image) (tol : Nat) :
    ∃ out, stripL img tol = some out ∧
      out.width = img.width ∧ out.height = img.height ∧
      out.data.length = img.data.length ∧
      (∀ x y : Int, inB img.width img.height x y = true →
        (Reach (mkCtx img tol) img.data x y →
          out.data.getD (idxOf img.width x y) clearPixel = clearPixel) ∧
        (¬ Reach (mkCtx img tol) img.data x y →
          out.data.getD (idxOf img.width x y) clearPixel
            = img.data.getD (idxOf img.width x y) clearPixel)) ∧
      (∀ i : Nat, (∀ x y : Int, inB img.width img.height x y = true →
          i ≠ idxOf img.width x y) →
        out.data.getD i clearPixel = img.data.getD i clearPixel) := by
  have hI0 := finv_init img tol
  have hm0 : fmeasure (mkCtx img tol) ⟨img.data, ∅, initQueue img.width img.height⟩
      ≤ stripFuel img := by
    unfold fmeasure stripFuel
    simp only [Finset.card_empty, Nat.sub_zero]
    exact Nat.le_refl _
  obtain ⟨r, hr, hIr, hqr⟩ :=
    floodLoopL_run (mkCtx img tol) img.data (stripFuel img) _ hI0 hm0
  refine ⟨{ img with data := r.data }, ?_, rfl, rfl, hIr.data_len, ?_, hIr.out_idx⟩
  · unfold stripL
    rw [hr]
    rfl
  · intro x y hin
    exact finv_final _ _ _ hIr hqr x y hin

/-! ### The flood-fill claims -/

/-- C9: for every finite RGBA buffer of any dimensions and any tolerance, the
flood-fill worklist loop terminates — the fuel bound
`5·width·height + |initial worklist|` always suffices, because a popped pixel
is either discarded (out of bounds or visited) or marked visited exactly once,
and only in-bounds coordinates enter the mask. -/
theorem strip_terminates (img : Image) (tol : Nat) :
    ∃ out, strip img tol = some out := by
  obtain ⟨out, hout, _⟩ := strip_spec img tol
  exact ⟨out, hout⟩

/-- C1: after the background-removal flood fill, a pixel not reachable from a
border pixel through a 4-connected within-tolerance path is entirely
unchanged — in particular it keeps its original alpha, even if its own color
matches the background color — so a pixel is made transparent only if it is
so reachable. -/
theorem strip_only_reachable_changed (img : Image) (tol : Nat) (out : Image)
    (x y : Int) (hs : strip img tol = some out)
    (hin : inB img.width img.height x y = true)
    (hnr : ¬ Reach (mkCtx img tol) img.data x y) :
    out.data.getD (idxOf img.width x y) clearPixel
      = img.data.getD (idxOf img.width x y) clearPixel := by
  obtain ⟨out', hout', hw, hh, hlen, hchar, hidx⟩ := strip_spec img tol
  rw [hs] at hout'
  obtain rfl := Option.some.inj hout'
  exact (hchar x y hin).2 hnr

def wPix : RGBA := ⟨240, 240, 240, 255⟩

def kPix : RGBA := ⟨10, 10, 10, 255⟩

/-- A 3×3 buffer: background-colored ring, dark center pixel. -/
def img3 : Image := ⟨3, 3, [wPix, wPix, wPix, wPix, kPix, wPix, wPix, wPix, wPix]⟩

def out3 : Image :=
  ⟨3, 3, [clearPixel, clearPixel, clearPixel, clearPixel, kPix,
          clearPixel, clearPixel, clearPixel, clearPixel]⟩

theorem strip_only_reachable_changed_witness :
    strip img3 30 = some out3 ∧
    inB img3.width img3.height 1 1 = true ∧
    ¬ Reach (mkCtx img3 30) img3.data 1 1 ∧
    out3.data.getD (idxOf img3.width 1 1) clearPixel
      = img3.data.getD (idxOf img3.width 1 1) clearPixel := by
  have hnr : ¬ Reach (mkCtx img3 30) img3.data 1 1 :=
    fun h => absurd (reach_inTol h) (by decide)
  refine ⟨by decide, by decide, hnr, ?_⟩
  exact strip_only_reachable_changed img3 30 out3 1 1 (by decide) (by decide) hnr

/-- C5: the tolerance comparison is inclusive.  A processed pixel (in bounds
and unvisited) whose Euclidean distance to the reference color is exactly the
tolerance — squared distance exactly `tol²` — is cleared, with its four
axis-aligned in-bounds unvisited neighbours appended to the worklist; a pixel
whose distance strictly exceeds the tolerance leaves the buffer untouched and
pushes nothing. -/
theorem tolerance_boundary (c : Ctx) (s : FloodState) (x y : Int)
    (hin : inB c.width c.height x y = true)
    (hnv : (x, y) ∉ s.visited) :
    (dist2 (pixAt c.width s.data x y) c.bg = (c.tol : Int) ^ 2 →
      floodStep c x y s =
        { data := setAt c.width s.data x y clearPixel,
          visited := insert (x, y) s.visited,
          queue := s.queue ++ (nbrs x y).filter
            (fun q => inB c.width c.height q.1 q.2
              && !decide (q ∈ insert (x, y) s.visited)) }) ∧
    ((c.tol : Int) ^ 2 < dist2 (pixAt c.width s.data x y) c.bg →
      floodStep c x y s = { s with visited := insert (x, y) s.visited }) := by
  constructor
  · intro heq
    unfold floodStep
    rw [if_pos (by simpa using hin), if_neg hnv, if_pos (le_of_eq heq)]
  · intro hgt
    unfold floodStep
    rw [if_pos (by simpa using hin), if_neg hnv, if_neg (not_le.mpr hgt)]

def c5ctx : Ctx := ⟨2, 2, ⟨0, 0, 0, 255⟩, 30⟩

def c5st : FloodState :=
  ⟨[⟨30, 0, 0, 255⟩, ⟨0, 0, 0, 255⟩, ⟨0, 0, 0, 255⟩, ⟨200, 200, 200, 255⟩], ∅, []⟩

theorem tolerance_boundary_witness :
    inB c5ctx.width c5ctx.height 0 0 = true ∧
    ((0, 0) : Int × Int) ∉ c5st.visited ∧
    dist2 (pixAt c5ctx.width c5st.data 0 0) c5ctx.bg = (c5ctx.tol : Int) ^ 2 ∧
    floodStep c5ctx 0 0 c5st =
      { data := setAt c5ctx.width c5st.data 0 0 clearPixel,
        visited := insert ((0 : Int), (0 : Int)) c5st.visited,
        queue := c5st.queue ++ (nbrs 0 0).filter
          (fun q => inB c5ctx.width c5ctx.height q.1 q.2
            && !decide (q ∈ insert ((0 : Int), (0 : Int)) c5st.visited)) } := by
  refine ⟨by decide, by decide, by decide, ?_⟩
  exact (tolerance_boundary c5ctx c5st 0 0 (by decide) (by decide)).1 (by decide)

def img1 : Image := ⟨1, 1, [⟨200, 200, 200, 255⟩]⟩

/-- C6 counterexample: `setPixelColor(0x00000000, x, y)` zeroes all four
channels, not only alpha.  On a 1×1 image whose single pixel is
`(200,200,200,255)` the stripped pixel is `(0,0,0,0)`: its red channel changed
from 200 to 0, refuting "the R, G, and B components are unchanged". -/
theorem strip_zeroes_rgb :
    strip img1 30 = some ⟨1, 1, [clearPixel]⟩ ∧
    ((⟨1, 1, [clearPixel]⟩ : Image).data.getD 0 clearPixel).r
      ≠ (img1.data.getD 0 clearPixel).r :=
  ⟨by decide, by decide⟩

/-- C6 (amended): `strip` touches pixels only by overwriting them with the
all-zero RGBA value — every pixel of the output is either bit-identical to the
input pixel, or equal to `clearPixel` (alpha 0 with R, G, B zeroed as well);
retained pixels are entirely unchanged. -/
theorem strip_pixels_unchanged_or_cleared (img : Image) (tol : Nat) (out : Image)
    (hs : strip img tol = some out) :
    out.data.length = img.data.length ∧
    ∀ i : Nat, out.data.getD i clearPixel = img.data.getD i clearPixel ∨
      out.data.getD i clearPixel = clearPixel := by
  obtain ⟨out', hout', hw, hh, hlen, hchar, hidx⟩ := strip_spec img tol
  rw [hs] at hout'
  obtain rfl := Option.some.inj hout'
  refine ⟨hlen, ?_⟩
  intro i
  by_cases hex : ∃ x y : Int, inB img.width img.height x y = true
      ∧ i = idxOf img.width x y
  · obtain ⟨x, y, hin, rfl⟩ := hex
    by_cases hr : Reach (mkCtx img tol) img.data x y
    · exact Or.inr ((hchar x y hin).1 hr)
    · exact Or.inl ((hchar x y hin).2 hr)
  · exact Or.inl (hidx i (fun x y hin heq => hex ⟨x, y, hin, heq⟩))

theorem strip_pixels_unchanged_or_cleared_witness :
    strip img1 30 = some ⟨1, 1, [clearPixel]⟩ ∧
    ((⟨1, 1, [clearPixel]⟩ : Image).data.length = img1.data.length ∧
     ∀ i : Nat, (⟨1, 1, [clearPixel]⟩ : Image).data.getD i clearPixel
        = img1.data.getD i clearPixel ∨
       (⟨1, 1, [clearPixel]⟩ : Image).data.getD i clearPixel = clearPixel) :=
  ⟨by decide, strip_pixels_unchanged_or_cleared img1 30 _ (by decide)⟩

/-- C10: the final buffer is independent of the worklist discipline —
replacing the FIFO `shift` with a LIFO pop-from-the-back, everything else
unchanged, produces an identical image for every input buffer and tolerance,
because either way the cleared set is exactly the set of border-reachable
within-tolerance pixels. -/
theorem strip_worklist_order_irrelevant (img : Image) (tol : Nat) :
    strip img tol = stripL img tol := by
  obtain ⟨out1, h1, hw1, hh1, hlen1, hchar1, hidx1⟩ := strip_spec img tol
  obtain ⟨out2, h2, hw2, hh2, hlen2, hchar2, hidx2⟩ := stripL_spec img tol
  rw [h1, h2]
  have hdata : out1.data = out2.data := by
    apply List.ext_getElem?
    intro n
    by_cases hn : n < img.data.length
    · have hn1 : n < out1.data.length := by rw [hlen1]; exact hn
      have hn2 : n < out2.data.length := by rw [hlen2]; exact hn
      have key : out1.data.getD n clearPixel = out2.data.getD n clearPixel := by
        by_cases hex : ∃ x y : Int, inB img.width img.height x y = true
            ∧ n = idxOf img.width x y
        · obtain ⟨x, y, hin, rfl⟩ := hex
          by_cases hr : Reach (mkCtx img tol) img.data x y
          · rw [(hchar1 x y hin).1 hr, (hchar2 x y hin).1 hr]
          · rw [(hchar1 x y hin).2 hr, (hchar2 x y hin).2 hr]
        · rw [hidx1 n (fun x y hin heq => hex ⟨x, y, hin, heq⟩),
              hidx2 n (fun x y hin heq => hex ⟨x, y, hin, heq⟩)]
      rw [List.getElem?_eq_getElem hn1, List.getElem?_eq_getElem hn2]
      have g1 : out1.data[n] = out1.data.getD n clearPixel := by
        rw [List.getD_eq_getElem?_getD, List.getElem?_eq_getElem hn1]
        rfl
      have g2 : out2.data[n] = out2.data.getD n clearPixel := by
        rw [List.getD_eq_getElem?_getD, List.getElem?_eq_getElem hn2]
        rfl
      rw [g1, g2, key]
    · have e1 : out1.data[n]? = none := List.getElem?_eq_none (by rw [hlen1]; omega)
      have e2 : out2.data[n]? = none := List.getElem?_eq_none (by rw [hlen2]; omega)
      rw [e1, e2]
  have houteq : out1 = out2 := by
    cases out1 with
    | mk a1 b1 d1 =>
      cases out2 with
      | mk a2 b2 d2 =>
        simp only [Image.mk.injEq]
        refine ⟨?_, ?_, hdata⟩
        · rw [show a1 = (Image.mk a1 b1 d1).width from rfl, hw1,
              show a2 = (Image.mk a2 b2 d2).width from rfl, hw2]
        · rw [show b1 = (Image.mk a1 b1 d1).height from rfl, hh1,
              show b2 = (Image.mk a2 b2 d2).height from rfl, hh2]
  rw [houteq]

end Creatures
